import Mathlib

/-!
Shallow embedding of the multimodal emotion fusion core of the
Emotion_Recognition_system repository
(`src/backend/utils/emotion_combiner.py`, class `EmotionCombiner`).

Two layers are embedded, both directly from the source:

* a *clean* layer over well-formed entries (`Entry`, a label plus a rational
  confidence), used for the functional claims about `combine_emotions`,
  `normalize_emotions` and `filter_top_emotions`;
* a *raw* layer over Python-dict-like entries (`RawEntry`, whose keys may be
  missing and whose confidence may be a non-numeric value), with `Except PyErr`
  modelling Python exceptions (KeyError / TypeError), used for the
  error-handling behaviour: each public method wraps its body in
  `try/except`, logging and returning a fallback value on any exception.

Modelling conventions:
* Python floats are modelled as rationals (`ℚ`); all arithmetic is exact.
* `weights` is a Python dict, modelled as `String → Option ℚ`;
  `weights.get(source, 0)` is `getWeight`.
* The Python `set` used for label discovery is iterated in insertion order in
  this model (first appearance across the sources, which are themselves
  iterated in dict insertion order text, audio, visual); CPython's actual set
  iteration order is hash-dependent and not deterministic across runs, so
  order among entries of equal fused confidence is the only place this choice
  shows.
* `sorted(..., key=confidence, reverse=True)` is a stable descending sort,
  modelled by `List.insertionSort` with the non-strict total relation
  `b.confidence ≤ a.confidence` (insertion sort with a non-strict total
  relation is stable, so it computes the same function as Python's stable
  sort).
* Passing `None` for a modality list and passing `[]` are indistinguishable in
  the source (`if text_emotions:` is falsy for both), so modality arguments
  are plain lists; the `weights=None` default corresponds to `default_weights`.
-/

namespace EmotionRec

/-- A well-formed emotion score: Python dict `{'emotion': label, 'confidence': c}`. -/
structure Entry where
  emotion : String
  confidence : ℚ
deriving DecidableEq, Repr

/-- A Python dict of per-modality weights; a name not in the dict is `none`. -/
abbrev Weights := String → Option ℚ

/-- `weights.get(source, 0)` from the source. -/
def getWeight (w : Weights) (s : String) : ℚ :=
  (w s).getD 0

/-- `self.default_weights = {'text': 0.4, 'audio': 0.3, 'visual': 0.3}`. -/
def default_weights : Weights := fun s =>
  if s = "text" then some (4/10)
  else if s = "audio" then some (3/10)
  else if s = "visual" then some (3/10)
  else none

/-- The `emotion_sources` dict built in `combine_emotions`: each nonempty
modality list is added under its name, in the source order text, audio,
visual (Python dicts preserve insertion order). -/
def emotionSources (text_emotions audio_emotions visual_emotions : List Entry) :
    List (String × List Entry) :=
  (if text_emotions ≠ [] then [("text", text_emotions)] else []) ++
  (if audio_emotions ≠ [] then [("audio", audio_emotions)] else []) ++
  (if visual_emotions ≠ [] then [("visual", visual_emotions)] else [])

/-- `unique_emotions.add(x)`: adding to a set, modelled with insertion order. -/
def insertUnique (acc : List String) (x : String) : List String :=
  if x ∈ acc then acc else acc ++ [x]

/-- All labels of all active sources in iteration order
(`for emotions in emotion_sources.values(): for emotion in emotions: ...`). -/
def allLabels (sources : List (String × List Entry)) : List String :=
  (sources.map (fun p => p.2.map Entry.emotion)).flatten

/-- The `unique_emotions` set of `combine_emotions`, as the insertion-ordered
list of distinct labels. -/
def uniqueEmotions (sources : List (String × List Entry)) : List String :=
  (allLabels sources).foldl insertUnique []

/-- `next((e['confidence'] for e in emotions if e['emotion'] == emotion), 0)`:
confidence of the first entry carrying `label`, else `0`. -/
def findScore : List Entry → String → ℚ
  | [], _ => 0
  | e :: rest, label => if e.emotion = label then e.confidence else findScore rest label

/-- The per-label accumulation loop of `combine_emotions`: returns the pair
`(weighted_sum, total_weight)`, accumulated over the sources whose score for
`label` is strictly positive. -/
def labelWeights (sources : List (String × List Entry)) (weights : Weights)
    (label : String) : ℚ × ℚ :=
  sources.foldl
    (fun acc p =>
      let emotion_score := findScore p.2 label
      if emotion_score > 0 then
        (acc.1 + emotion_score * getWeight weights p.1,
         acc.2 + getWeight weights p.1)
      else acc)
    (0, 0)

/-- The spec's formula `weighted_sum(L) = Σ_m [score_m(L) * weight(m)]` over
the modalities `m` whose score for `L` is strictly positive (spec §4.2,
step 3b); stated independently of the source's accumulation loop, to be
compared with `labelWeights`. -/
def weighted_sum (sources : List (String × List Entry)) (weights : Weights)
    (label : String) : ℚ :=
  ((sources.filter (fun p => findScore p.2 label > 0)).map
    (fun p => findScore p.2 label * getWeight weights p.1)).sum

/-- The spec's formula `total_weight(L) = Σ_m weight(m)` over the same
restricted set of modalities (spec §4.2, step 3b). -/
def total_weight (sources : List (String × List Entry)) (weights : Weights)
    (label : String) : ℚ :=
  ((sources.filter (fun p => findScore p.2 label > 0)).map
    (fun p => getWeight weights p.1)).sum

/-- Override one modality name in a weights dict with an explicit weight. -/
def setWeight (w : Weights) (name : String) (q : ℚ) : Weights := fun s =>
  if s = name then some q else w s

/-- The `combined_emotions` dict converted to a list, before sorting: one
entry per label with positive `total_weight`, in label-discovery order. -/
def combinedList (sources : List (String × List Entry)) (weights : Weights) :
    List Entry :=
  (uniqueEmotions sources).filterMap (fun label =>
    let acc := labelWeights sources weights label
    if acc.2 > 0 then some ⟨label, acc.1 / acc.2⟩ else none)

/-- Descending confidence order: `a` may come before `b`. -/
def confGE (a b : Entry) : Prop :=
  b.confidence ≤ a.confidence

instance : DecidableRel confGE := fun a b =>
  inferInstanceAs (Decidable (b.confidence ≤ a.confidence))

instance : IsTotal Entry confGE :=
  ⟨fun a b => le_total b.confidence a.confidence⟩

instance : IsTrans Entry confGE :=
  ⟨fun _ _ _ hab hbc => le_trans hbc hab⟩

/-- `sorted(result, key=lambda x: x['confidence'], reverse=True)`:
Python's stable descending sort. -/
def sortByConfidenceDesc (l : List Entry) : List Entry :=
  l.insertionSort confGE

/-- `EmotionCombiner.combine_emotions` on well-formed input (on which the
`try` body cannot raise). -/
def combine_emotions (text_emotions audio_emotions visual_emotions : List Entry)
    (weights : Weights) : List Entry :=
  let sources := emotionSources text_emotions audio_emotions visual_emotions
  if sources = [] then []
  else sortByConfidenceDesc (combinedList sources weights)

/-- `EmotionCombiner.normalize_emotions` on well-formed input. -/
def normalize_emotions (emotions : List Entry) : List Entry :=
  if emotions = [] then []
  else
    let total_confidence := (emotions.map Entry.confidence).sum
    if total_confidence = 0 then emotions
    else emotions.map (fun e => ⟨e.emotion, e.confidence / total_confidence * 100⟩)

/-- Python list slicing `l[:k]` for an `int` index `k` (negative `k` drops
`|k|` elements from the end). -/
def pySlice (l : List Entry) (k : ℤ) : List Entry :=
  if 0 ≤ k then l.take k.toNat else l.take (l.length - (-k).toNat)

/-- `EmotionCombiner.filter_top_emotions`: re-sort descending, keep `top_k`. -/
def filter_top_emotions (emotions : List Entry) (top_k : ℤ) : List Entry :=
  pySlice (sortByConfidenceDesc emotions) top_k

/-! ### Raw layer: Python dict semantics with exceptions

`RawEntry` models an arbitrary dict appearing in an emotion list: the
`'emotion'` key may be absent and the `'confidence'` value may be a string.
`Except PyErr` models exception propagation inside the `try` bodies; the
public methods catch every exception and return a fallback. -/

/-- A Python value that can sit under the `'confidence'` key. -/
inductive PyVal where
  | num (q : ℚ)
  | str (s : String)
deriving DecidableEq, Repr

/-- The exceptions the fusion-core bodies can raise. -/
inductive PyErr where
  | keyError
  | typeError
deriving DecidableEq, Repr

/-- A possibly-malformed emotion dict. -/
structure RawEntry where
  emotion? : Option String
  confidence? : Option PyVal
deriving DecidableEq, Repr

/-- `e['emotion']`: KeyError when the key is absent. -/
def getEmotionKey (e : RawEntry) : Except PyErr String :=
  match e.emotion? with
  | some s => .ok s
  | none => .error .keyError

/-- `e['confidence']`: KeyError when the key is absent. -/
def getConfidenceKey (e : RawEntry) : Except PyErr PyVal :=
  match e.confidence? with
  | some v => .ok v
  | none => .error .keyError

/-- The `emotion_sources` dict over raw lists. -/
def emotionSourcesRaw (text_emotions audio_emotions visual_emotions : List RawEntry) :
    List (String × List RawEntry) :=
  (if text_emotions ≠ [] then [("text", text_emotions)] else []) ++
  (if audio_emotions ≠ [] then [("audio", audio_emotions)] else []) ++
  (if visual_emotions ≠ [] then [("visual", visual_emotions)] else [])

/-- The label-discovery loop over raw entries: `e['emotion']` may raise. -/
def uniqueEmotionsRaw (sources : List (String × List RawEntry)) :
    Except PyErr (List String) :=
  sources.foldlM
    (fun acc p => p.2.foldlM
      (fun acc e => do
        let lbl ← getEmotionKey e
        pure (insertUnique acc lbl)) acc)
    []

/-- Raw `next((e['confidence'] for e in emotions if e['emotion'] == emotion), 0)`:
walks the list, raising KeyError on a missing `'emotion'` key, and yields the
(possibly non-numeric) confidence of the first match, else `0`. -/
def findScoreRaw (emotions : List RawEntry) (label : String) : Except PyErr PyVal :=
  match emotions with
  | [] => .ok (.num 0)
  | e :: rest => do
    let lbl ← getEmotionKey e
    if lbl = label then getConfidenceKey e else findScoreRaw rest label

/-- The raw per-label accumulation: `emotion_score > 0` raises TypeError on a
non-numeric score. -/
def labelWeightsRaw (sources : List (String × List RawEntry)) (weights : Weights)
    (label : String) : Except PyErr (ℚ × ℚ) :=
  sources.foldlM
    (fun acc p => do
      let sc ← findScoreRaw p.2 label
      match sc with
      | .str _ => .error .typeError
      | .num q =>
        if q > 0 then
          pure (acc.1 + q * getWeight weights p.1, acc.2 + getWeight weights p.1)
        else pure acc)
    (0, 0)

/-- The `try` body of `combine_emotions` over raw entries. -/
def combineBodyRaw (text_emotions audio_emotions visual_emotions : List RawEntry)
    (weights : Weights) : Except PyErr (List Entry) :=
  let sources := emotionSourcesRaw text_emotions audio_emotions visual_emotions
  if sources = [] then .ok []
  else do
    let labels ← uniqueEmotionsRaw sources
    let combined ← labels.filterMapM (fun label => do
      let acc ← labelWeightsRaw sources weights label
      if acc.2 > 0 then pure (some (⟨label, acc.1 / acc.2⟩ : Entry))
      else pure none)
    pure (sortByConfidenceDesc combined)

/-- `EmotionCombiner.combine_emotions` over raw entries: the `except` clause
catches every exception, logs, and returns `[]`. -/
def combine_emotions_py (text_emotions audio_emotions visual_emotions : List RawEntry)
    (weights : Weights) : Except PyErr (List Entry) :=
  match combineBodyRaw text_emotions audio_emotions visual_emotions weights with
  | .ok r => .ok r
  | .error _ => .ok []

/-- `sum(e['confidence'] for e in emotions)`: starts from int `0`, raising
TypeError as soon as a non-numeric confidence is added. -/
def sumConfidencesRaw (emotions : List RawEntry) : Except PyErr ℚ :=
  emotions.foldlM
    (fun acc e => do
      let c ← getConfidenceKey e
      match c with
      | .num q => pure (acc + q)
      | .str _ => .error .typeError)
    0

/-- The `try` body of `normalize_emotions` over raw entries. -/
def normalizeBodyRaw (emotions : List RawEntry) : Except PyErr (List RawEntry) :=
  if emotions = [] then .ok []
  else do
    let total_confidence ← sumConfidencesRaw emotions
    if total_confidence = 0 then pure emotions
    else emotions.mapM (fun e => do
      let lbl ← getEmotionKey e
      let c ← getConfidenceKey e
      match c with
      | .num q => pure (⟨some lbl, some (.num (q / total_confidence * 100))⟩ : RawEntry)
      | .str _ => .error .typeError)

/-- `EmotionCombiner.normalize_emotions` over raw entries: the `except`
clause catches every exception, logs, and returns the input unchanged. -/
def normalize_emotions_py (emotions : List RawEntry) : Except PyErr (List RawEntry) :=
  match normalizeBodyRaw emotions with
  | .ok r => .ok r
  | .error _ => .ok emotions

/-! ### General lemmas about the embedded operations -/

theorem mem_insertUnique {acc : List String} {x a : String} :
    a ∈ insertUnique acc x ↔ a ∈ acc ∨ a = x := by
  unfold insertUnique
  by_cases h : x ∈ acc
  · rw [if_pos h]
    exact ⟨Or.inl, fun h' => h'.elim id (fun hax => hax ▸ h)⟩
  · rw [if_neg h]
    simp

theorem nodup_insertUnique {acc : List String} {x : String} (h : acc.Nodup) :
    (insertUnique acc x).Nodup := by
  unfold insertUnique
  by_cases hx : x ∈ acc
  · rwa [if_pos hx]
  · rw [if_neg hx]
    simpa [List.nodup_append] using ⟨h, hx⟩

theorem mem_foldl_insertUnique (l : List String) (acc : List String) (a : String) :
    a ∈ l.foldl insertUnique acc ↔ a ∈ acc ∨ a ∈ l := by
  induction l generalizing acc with
  | nil => simp
  | cons x xs ih =>
    rw [List.foldl_cons, ih, mem_insertUnique]
    simp [or_assoc]

theorem nodup_foldl_insertUnique (l : List String) (acc : List String) (h : acc.Nodup) :
    (l.foldl insertUnique acc).Nodup := by
  induction l generalizing acc with
  | nil => exact h
  | cons x xs ih => exact ih _ (nodup_insertUnique h)

theorem mem_uniqueEmotions {sources : List (String × List Entry)} {L : String} :
    L ∈ uniqueEmotions sources ↔ L ∈ allLabels sources := by
  unfold uniqueEmotions
  rw [mem_foldl_insertUnique]
  simp

theorem nodup_uniqueEmotions (sources : List (String × List Entry)) :
    (uniqueEmotions sources).Nodup :=
  nodup_foldl_insertUnique _ _ List.nodup_nil

theorem mem_allLabels {sources : List (String × List Entry)} {L : String} :
    L ∈ allLabels sources ↔ ∃ p ∈ sources, ∃ e ∈ p.2, e.emotion = L := by
  unfold allLabels
  rw [List.mem_flatten]
  constructor
  · rintro ⟨l, hl, hL⟩
    obtain ⟨p, hp, rfl⟩ := List.mem_map.mp hl
    obtain ⟨e, he, rfl⟩ := List.mem_map.mp hL
    exact ⟨p, hp, e, he, rfl⟩
  · rintro ⟨p, hp, e, he, rfl⟩
    exact ⟨_, List.mem_map_of_mem _ hp, List.mem_map_of_mem _ he⟩

theorem findScore_eq_zero_of_not_mem {ems : List Entry} {L : String}
    (h : ∀ e ∈ ems, e.emotion ≠ L) : findScore ems L = 0 := by
  induction ems with
  | nil => rfl
  | cons e rest ih =>
    rw [findScore, if_neg (h e (List.mem_cons_self e rest))]
    exact ih fun x hx => h x (List.mem_cons_of_mem e hx)

theorem findScore_of_mem_nodup {E : List Entry} (h : (E.map Entry.emotion).Nodup)
    {e : Entry} (he : e ∈ E) : findScore E e.emotion = e.confidence := by
  induction E with
  | nil => cases he
  | cons f rest ih =>
    rw [List.map_cons, List.nodup_cons] at h
    rcases List.mem_cons.mp he with rfl | hr
    · rw [findScore, if_pos rfl]
    · have hne : f.emotion ≠ e.emotion := fun heq => h.1 (heq ▸ List.mem_map_of_mem _ hr)
      rw [findScore, if_neg hne]
      exact ih h.2 hr

theorem labelWeights_eq (sources : List (String × List Entry)) (weights : Weights)
    (label : String) :
    labelWeights sources weights label =
      (weighted_sum sources weights label, total_weight sources weights label) := by
  suffices h : ∀ init : ℚ × ℚ,
      sources.foldl
        (fun acc p =>
          let emotion_score := findScore p.2 label
          if emotion_score > 0 then
            (acc.1 + emotion_score * getWeight weights p.1,
             acc.2 + getWeight weights p.1)
          else acc)
        init =
      (init.1 + weighted_sum sources weights label,
       init.2 + total_weight sources weights label) by
    have := h (0, 0)
    simpa [labelWeights] using this
  induction sources with
  | nil => intro init; simp [weighted_sum, total_weight]
  | cons p ps ih =>
    intro init
    rw [List.foldl_cons]
    by_cases hp : findScore p.2 label > 0
    · rw [if_pos hp, ih]
      simp only [weighted_sum, total_weight, List.filter_cons, hp, decide_True,
        if_true, List.map_cons, List.sum_cons, Prod.mk.injEq]
      constructor <;> ring
    · rw [if_neg hp, ih]
      simp [weighted_sum, total_weight, List.filter_cons, hp]

theorem weighted_sum_append (s₁ s₂ : List (String × List Entry)) (w : Weights) (L : String) :
    weighted_sum (s₁ ++ s₂) w L = weighted_sum s₁ w L + weighted_sum s₂ w L := by
  simp [weighted_sum, List.filter_append]

theorem total_weight_append (s₁ s₂ : List (String × List Entry)) (w : Weights) (L : String) :
    total_weight (s₁ ++ s₂) w L = total_weight s₁ w L + total_weight s₂ w L := by
  simp [total_weight, List.filter_append]

theorem total_weight_pos_iff {sources : List (String × List Entry)} {w : Weights} {L : String}
    (hw : ∀ s, 0 ≤ getWeight w s) :
    0 < total_weight sources w L ↔
      ∃ p ∈ sources, 0 < findScore p.2 L ∧ 0 < getWeight w p.1 := by
  constructor
  · intro hpos
    by_contra hno
    push_neg at hno
    have hz : total_weight sources w L = 0 := by
      unfold total_weight
      apply List.sum_eq_zero
      intro x hx
      obtain ⟨p, hpmem, rfl⟩ := List.mem_map.mp hx
      have hpf := List.mem_filter.mp hpmem
      have hsc : 0 < findScore p.2 L := by simpa using hpf.2
      exact le_antisymm (hno p hpf.1 hsc) (hw p.1)
    rw [hz] at hpos
    exact lt_irrefl 0 hpos
  · rintro ⟨p, hp, hsc, hwp⟩
    have hmem : getWeight w p.1 ∈
        (sources.filter (fun p => findScore p.2 L > 0)).map (fun p => getWeight w p.1) :=
      List.mem_map_of_mem _ (List.mem_filter.mpr ⟨hp, by simpa using hsc⟩)
    have := List.single_le_sum (l := (sources.filter
        (fun p => findScore p.2 L > 0)).map (fun p => getWeight w p.1))
      (fun x hx => by
        obtain ⟨q, _, rfl⟩ := List.mem_map.mp hx
        exact hw q.1) _ hmem
    exact lt_of_lt_of_le hwp this

theorem weighted_sum_pos {sources : List (String × List Entry)} {w : Weights} {L : String}
    (hw : ∀ s, 0 ≤ getWeight w s) (h : 0 < total_weight sources w L) :
    0 < weighted_sum sources w L := by
  obtain ⟨p, hp, hsc, hwp⟩ := (total_weight_pos_iff hw).mp h
  have hterm : 0 < findScore p.2 L * getWeight w p.1 := mul_pos hsc hwp
  have hmem : findScore p.2 L * getWeight w p.1 ∈
      (sources.filter (fun p => findScore p.2 L > 0)).map
        (fun p => findScore p.2 L * getWeight w p.1) :=
    List.mem_map_of_mem _ (List.mem_filter.mpr ⟨hp, by simpa using hsc⟩)
  have hle := List.single_le_sum (l := (sources.filter
      (fun p => findScore p.2 L > 0)).map (fun p => findScore p.2 L * getWeight w p.1))
    (fun x hx => by
      obtain ⟨q, hq, rfl⟩ := List.mem_map.mp hx
      have hqsc : 0 < findScore q.2 L := by simpa using (List.mem_filter.mp hq).2
      exact mul_nonneg hqsc.le (hw q.1)) _ hmem
  exact lt_of_lt_of_le hterm hle

theorem mem_combinedList {sources : List (String × List Entry)} {w : Weights} {e : Entry} :
    e ∈ combinedList sources w ↔
      e.emotion ∈ uniqueEmotions sources ∧
      0 < total_weight sources w e.emotion ∧
      e.confidence = weighted_sum sources w e.emotion / total_weight sources w e.emotion := by
  unfold combinedList
  rw [List.mem_filterMap]
  constructor
  · rintro ⟨L, hL, hsome⟩
    simp only [labelWeights_eq] at hsome
    by_cases htw : total_weight sources w L > 0
    · rw [if_pos htw] at hsome
      obtain rfl := Option.some.inj hsome
      exact ⟨hL, htw, rfl⟩
    · rw [if_neg htw] at hsome
      cases hsome
  · rintro ⟨hL, htw, hconf⟩
    refine ⟨e.emotion, hL, ?_⟩
    simp only [labelWeights_eq]
    rw [if_pos htw, ← hconf]

theorem sortByConfidenceDesc_perm (l : List Entry) : (sortByConfidenceDesc l).Perm l :=
  List.perm_insertionSort _ _

theorem sorted_sortByConfidenceDesc (l : List Entry) :
    (sortByConfidenceDesc l).Pairwise confGE :=
  List.sorted_insertionSort _ _

theorem combine_emotions_eq (te ae ve : List Entry) (w : Weights) :
    combine_emotions te ae ve w =
      sortByConfidenceDesc (combinedList (emotionSources te ae ve) w) := by
  unfold combine_emotions
  by_cases h : emotionSources te ae ve = []
  · rw [if_pos h, h]
    rfl
  · rw [if_neg h]

theorem mem_combine_emotions {te ae ve : List Entry} {w : Weights} {e : Entry} :
    e ∈ combine_emotions te ae ve w ↔ e ∈ combinedList (emotionSources te ae ve) w := by
  rw [combine_emotions_eq]
  exact (sortByConfidenceDesc_perm _).mem_iff

theorem length_sortByConfidenceDesc (l : List Entry) :
    (sortByConfidenceDesc l).length = l.length :=
  (sortByConfidenceDesc_perm l).length_eq

theorem combine_emotions_congr (te ae ve : List Entry) {w w' : Weights}
    (h : ∀ s, getWeight w s = getWeight w' s) :
    combine_emotions te ae ve w = combine_emotions te ae ve w' := by
  have hfun : getWeight w = getWeight w' := funext h
  unfold combine_emotions combinedList labelWeights
  rw [hfun]

theorem foldl_insertUnique_of_fresh (l : List String) (acc : List String)
    (hfresh : ∀ x ∈ l, x ∉ acc) (hnodup : l.Nodup) :
    l.foldl insertUnique acc = acc ++ l := by
  induction l generalizing acc with
  | nil => simp
  | cons x xs ih =>
    rw [List.foldl_cons]
    have hx : insertUnique acc x = acc ++ [x] := by
      unfold insertUnique
      rw [if_neg (hfresh x (List.mem_cons_self x xs))]
    rw [hx, ih (acc ++ [x]) ?_ (List.nodup_cons.mp hnodup).2, List.append_assoc]
    · rfl
    · intro y hy
      rw [List.mem_append, List.mem_singleton]
      rintro (hacc | rfl)
      · exact hfresh y (List.mem_cons_of_mem x hy) hacc
      · exact (List.nodup_cons.mp hnodup).1 hy

theorem uniqueEmotions_single (name : String) (E : List Entry)
    (hnodup : (E.map Entry.emotion).Nodup) :
    uniqueEmotions [(name, E)] = E.map Entry.emotion := by
  have hall : allLabels [(name, E)] = E.map Entry.emotion := by
    unfold allLabels
    simp
  unfold uniqueEmotions
  rw [hall, foldl_insertUnique_of_fresh _ _ (by simp) hnodup, List.nil_append]

theorem filterMap_map_eq_self {E : List Entry} {f : String → Option Entry}
    (h : ∀ e ∈ E, f e.emotion = some e) : (E.map Entry.emotion).filterMap f = E := by
  induction E with
  | nil => rfl
  | cons e rest ih =>
    rw [List.map_cons, List.filterMap_cons, h e (List.mem_cons_self e rest),
      ih fun x hx => h x (List.mem_cons_of_mem e hx)]

theorem combinedList_single (name : String) (E : List Entry) (w : Weights)
    (hpos : ∀ e ∈ E, 0 < e.confidence) (hnodup : (E.map Entry.emotion).Nodup)
    (hw : 0 < getWeight w name) :
    combinedList [(name, E)] w = E := by
  unfold combinedList
  rw [uniqueEmotions_single name E hnodup]
  apply filterMap_map_eq_self
  intro e he
  have hfs : findScore E e.emotion = e.confidence := findScore_of_mem_nodup hnodup he
  have hfilter : ([(name, E)].filter (fun p => findScore p.2 e.emotion > 0)) = [(name, E)] := by
    simp [List.filter_cons, hfs, hpos e he]
  simp only [labelWeights_eq]
  have htw : total_weight [(name, E)] w e.emotion = getWeight w name := by
    unfold total_weight
    rw [hfilter]
    simp
  have hws : weighted_sum [(name, E)] w e.emotion = e.confidence * getWeight w name := by
    unfold weighted_sum
    rw [hfilter]
    simp [hfs]
  rw [htw, hws, if_pos hw, mul_div_cancel_right₀ _ (ne_of_gt hw)]

theorem weighted_sum_singleton_zero (name : String) (lst : List Entry) (w : Weights)
    (L : String) (h : getWeight w name = 0) : weighted_sum [(name, lst)] w L = 0 := by
  unfold weighted_sum
  by_cases hf : findScore lst L > 0 <;> simp [List.filter_cons, hf, h]

theorem total_weight_singleton_zero (name : String) (lst : List Entry) (w : Weights)
    (L : String) (h : getWeight w name = 0) : total_weight [(name, lst)] w L = 0 := by
  unfold total_weight
  by_cases hf : findScore lst L > 0 <;> simp [List.filter_cons, hf, h]

theorem weighted_sum_middle_zero (pre post : List (String × List Entry))
    (name : String) (lst : List Entry) (w : Weights) (L : String)
    (h : getWeight w name = 0) :
    weighted_sum (pre ++ (name, lst) :: post) w L = weighted_sum (pre ++ post) w L := by
  rw [show pre ++ (name, lst) :: post = pre ++ [(name, lst)] ++ post by simp,
    weighted_sum_append, weighted_sum_append, weighted_sum_singleton_zero name lst w L h,
    add_zero, ← weighted_sum_append]

theorem total_weight_middle_zero (pre post : List (String × List Entry))
    (name : String) (lst : List Entry) (w : Weights) (L : String)
    (h : getWeight w name = 0) :
    total_weight (pre ++ (name, lst) :: post) w L = total_weight (pre ++ post) w L := by
  rw [show pre ++ (name, lst) :: post = pre ++ [(name, lst)] ++ post by simp,
    total_weight_append, total_weight_append, total_weight_singleton_zero name lst w L h,
    add_zero, ← total_weight_append]

theorem labelWeights_middle_zero (pre post : List (String × List Entry))
    (name : String) (lst : List Entry) (w : Weights) (L : String)
    (h : getWeight w name = 0) :
    labelWeights (pre ++ (name, lst) :: post) w L = labelWeights (pre ++ post) w L := by
  rw [labelWeights_eq, labelWeights_eq, weighted_sum_middle_zero pre post name lst w L h,
    total_weight_middle_zero pre post name lst w L h]

theorem total_weight_eq_zero_of_no_label {sources : List (String × List Entry)}
    {w : Weights} {L : String} (h : ∀ p ∈ sources, ∀ e ∈ p.2, e.emotion ≠ L) :
    total_weight sources w L = 0 := by
  have hfil : sources.filter (fun p => findScore p.2 L > 0) = [] :=
    List.filter_eq_nil_iff.mpr fun p hp => by
      have h0 : findScore p.2 L = 0 := findScore_eq_zero_of_not_mem (h p hp)
      simp [h0]
  unfold total_weight
  rw [hfil]
  rfl

theorem filterMap_perm_of_unique {u₁ u₂ : List String} {f : String → Option Entry}
    (h₁ : u₁.Nodup) (h₂ : u₂.Nodup) (hsub : ∀ L ∈ u₂, L ∈ u₁)
    (hnone : ∀ L ∈ u₁, L ∉ u₂ → f L = none) :
    (u₁.filterMap f).Perm (u₂.filterMap f) := by
  have step1 : (u₁.filterMap f).Perm
      ((u₁.filter (fun L => decide (L ∈ u₂))).filterMap f ++
       (u₁.filter (fun L => !decide (L ∈ u₂))).filterMap f) := by
    rw [← List.filterMap_append]
    exact ((List.filter_append_perm _ u₁).symm).filterMap f
  have step2 : (u₁.filter (fun L => !decide (L ∈ u₂))).filterMap f = [] := by
    rw [List.filterMap_eq_nil_iff]
    intro L hL
    have hm := List.mem_filter.mp hL
    exact hnone L hm.1 (by simpa using hm.2)
  have step3 : (u₁.filter (fun L => decide (L ∈ u₂))).Perm u₂ := by
    rw [List.perm_ext_iff_of_nodup (h₁.filter _) h₂]
    intro L
    rw [List.mem_filter]
    constructor
    · rintro ⟨_, hm⟩
      simpa using hm
    · intro hm
      exact ⟨hsub L hm, by simpa using hm⟩
  refine step1.trans ?_
  rw [step2, List.append_nil]
  exact step3.filterMap f

theorem combinedList_middle_zero (pre post : List (String × List Entry))
    (name : String) (lst : List Entry) (w : Weights)
    (h : getWeight w name = 0) :
    (combinedList (pre ++ (name, lst) :: post) w).Perm (combinedList (pre ++ post) w) := by
  have hf : (fun label =>
      let acc := labelWeights (pre ++ (name, lst) :: post) w label
      if acc.2 > 0 then some (⟨label, acc.1 / acc.2⟩ : Entry) else none) =
      (fun label =>
      let acc := labelWeights (pre ++ post) w label
      if acc.2 > 0 then some (⟨label, acc.1 / acc.2⟩ : Entry) else none) := by
    funext label
    rw [labelWeights_middle_zero pre post name lst w label h]
  unfold combinedList
  rw [hf]
  apply filterMap_perm_of_unique (nodup_uniqueEmotions _) (nodup_uniqueEmotions _)
  · intro L hL
    rw [mem_uniqueEmotions, mem_allLabels] at hL ⊢
    obtain ⟨p, hp, he⟩ := hL
    refine ⟨p, ?_, he⟩
    rw [List.mem_append] at hp ⊢
    rcases hp with hp | hp
    · exact Or.inl hp
    · exact Or.inr (List.mem_cons_of_mem _ hp)
  · intro L hL₁ hL₂
    have hno : ∀ p ∈ pre ++ post, ∀ e ∈ p.2, e.emotion ≠ L := by
      intro p hp e he heq
      exact hL₂ (mem_uniqueEmotions.mpr (mem_allLabels.mpr ⟨p, hp, e, he, heq⟩))
    have htw : total_weight (pre ++ post) w L = 0 := total_weight_eq_zero_of_no_label hno
    simp only [labelWeights_eq]
    rw [if_neg (by rw [htw]; exact lt_irrefl 0)]

/-! ### The claims -/

/-- C6: for every nonempty input whose confidences do not sum to 0,
`normalize_emotions` keeps length and label order and rescales each
confidence to `confidence / sum * 100`; in exact rational arithmetic the
resulting confidences sum to exactly 100 (hence within any floating-point
tolerance). -/
theorem C6_normalize_rescales (emotions : List Entry)
    (hne : emotions ≠ []) (hsum : (emotions.map Entry.confidence).sum ≠ 0) :
    normalize_emotions emotions =
      emotions.map (fun e =>
        (⟨e.emotion, e.confidence / (emotions.map Entry.confidence).sum * 100⟩ : Entry)) ∧
    ((normalize_emotions emotions).map Entry.confidence).sum = 100 ∧
    (normalize_emotions emotions).length = emotions.length ∧
    (normalize_emotions emotions).map Entry.emotion = emotions.map Entry.emotion := by
  have heq : normalize_emotions emotions =
      emotions.map (fun e =>
        (⟨e.emotion, e.confidence / (emotions.map Entry.confidence).sum * 100⟩ : Entry)) := by
    unfold normalize_emotions
    rw [if_neg hne]
    dsimp only
    rw [if_neg hsum]
  have hkey : ∀ (l : List Entry) (S : ℚ),
      ((l.map fun e => (⟨e.emotion, e.confidence / S * 100⟩ : Entry)).map
          Entry.confidence).sum
        = (l.map Entry.confidence).sum / S * 100 := by
    intro l S
    induction l with
    | nil => simp
    | cons e rest ih =>
      simp only [List.map_cons, List.sum_cons, ih]
      ring
  refine ⟨heq, ?_, ?_, ?_⟩
  · rw [heq, hkey, div_self hsum, one_mul]
  · rw [heq, List.length_map]
  · rw [heq, List.map_map]
    rfl

/-- C6 witness at a concrete input. -/
theorem C6_witness :
    (([⟨"a", 30⟩, ⟨"b", 10⟩] : List Entry) ≠ [] ∧
      (([⟨"a", 30⟩, ⟨"b", 10⟩] : List Entry).map Entry.confidence).sum ≠ 0) ∧
    normalize_emotions [⟨"a", 30⟩, ⟨"b", 10⟩] =
      ([⟨"a", 30⟩, ⟨"b", 10⟩] : List Entry).map (fun e =>
        (⟨e.emotion, e.confidence /
          (([⟨"a", 30⟩, ⟨"b", 10⟩] : List Entry).map Entry.confidence).sum * 100⟩ : Entry)) ∧
    ((normalize_emotions [⟨"a", 30⟩, ⟨"b", 10⟩]).map Entry.confidence).sum = 100 ∧
    (normalize_emotions [⟨"a", 30⟩, ⟨"b", 10⟩]).length =
      ([⟨"a", 30⟩, ⟨"b", 10⟩] : List Entry).length ∧
    (normalize_emotions [⟨"a", 30⟩, ⟨"b", 10⟩]).map Entry.emotion =
      ([⟨"a", 30⟩, ⟨"b", 10⟩] : List Entry).map Entry.emotion :=
  ⟨⟨by simp, by norm_num⟩, C6_normalize_rescales _ (by simp) (by norm_num)⟩

/-- C7: `normalize_emotions []` returns `[]`, and on any list whose
confidences sum to exactly 0 it returns the list unchanged — degenerate
input is a no-op, never an error. -/
theorem C7_normalize_degenerate :
    normalize_emotions [] = [] ∧
    ∀ emotions : List Entry, (emotions.map Entry.confidence).sum = 0 →
      normalize_emotions emotions = emotions := by
  refine ⟨rfl, fun ems h => ?_⟩
  by_cases hne : ems = []
  · subst hne; rfl
  · unfold normalize_emotions
    rw [if_neg hne]
    dsimp only
    rw [if_pos h]

/-- C7 witness at a concrete input. -/
theorem C7_witness :
    ((([⟨"a", 5⟩, ⟨"b", -5⟩] : List Entry).map Entry.confidence).sum = 0) ∧
    normalize_emotions [⟨"a", 5⟩, ⟨"b", -5⟩] = [⟨"a", 5⟩, ⟨"b", -5⟩] :=
  ⟨by norm_num, C7_normalize_degenerate.2 _ (by norm_num)⟩

/-- C8: for every emotion list and every `k > 0`, `filter_top_emotions`
returns a list sorted in descending confidence order with at most
`min k (length input)` entries; when the input has fewer than `k` entries
all of them are returned (as a permutation, re-sorted). -/
theorem C8_filter_top (emotions : List Entry) (k : ℤ) (hk : 0 < k) :
    (filter_top_emotions emotions k).length ≤ min k.toNat emotions.length ∧
    (filter_top_emotions emotions k).Pairwise confGE ∧
    ((emotions.length : ℤ) < k → (filter_top_emotions emotions k).Perm emotions) := by
  unfold filter_top_emotions pySlice
  rw [if_pos hk.le]
  refine ⟨?_, ?_, ?_⟩
  · rw [List.length_take, length_sortByConfidenceDesc]
  · exact List.Pairwise.sublist (List.take_sublist _ _) (sorted_sortByConfidenceDesc emotions)
  · intro hlt
    have hle : (sortByConfidenceDesc emotions).length ≤ k.toNat := by
      rw [length_sortByConfidenceDesc]
      omega
    rw [List.take_of_length_le hle]
    exact sortByConfidenceDesc_perm _

/-- C8 witness at a concrete input. -/
theorem C8_witness :
    (0 : ℤ) < 2 ∧
    ((filter_top_emotions [⟨"a", 10⟩, ⟨"b", 30⟩, ⟨"c", 20⟩] 2).length ≤
        min (2 : ℤ).toNat ([⟨"a", 10⟩, ⟨"b", 30⟩, ⟨"c", 20⟩] : List Entry).length ∧
      (filter_top_emotions [⟨"a", 10⟩, ⟨"b", 30⟩, ⟨"c", 20⟩] 2).Pairwise confGE ∧
      ((([⟨"a", 10⟩, ⟨"b", 30⟩, ⟨"c", 20⟩] : List Entry).length : ℤ) < 2 →
        (filter_top_emotions [⟨"a", 10⟩, ⟨"b", 30⟩, ⟨"c", 20⟩] 2).Perm
          [⟨"a", 10⟩, ⟨"b", 30⟩, ⟨"c", 20⟩])) :=
  ⟨by norm_num, C8_filter_top _ 2 (by norm_num)⟩

/-- C10: with non-negative weights, every entry of the combined output has
strictly positive confidence, and its label received a strictly positive
score from some active modality with strictly positive weight (zero or
negative scores are non-votes). -/
theorem C10_strictly_positive (te ae ve : List Entry) (w : Weights)
    (hw : ∀ s, 0 ≤ getWeight w s) :
    ∀ e ∈ combine_emotions te ae ve w,
      0 < e.confidence ∧
      ∃ p ∈ emotionSources te ae ve, 0 < getWeight w p.1 ∧ 0 < findScore p.2 e.emotion := by
  intro e he
  rw [mem_combine_emotions] at he
  obtain ⟨hu, htw, hconf⟩ := mem_combinedList.mp he
  obtain ⟨p, hp, hsc, hwp⟩ := (total_weight_pos_iff hw).mp htw
  exact ⟨hconf ▸ div_pos (weighted_sum_pos hw htw) htw, p, hp, hwp, hsc⟩

/-- C2 counterexample: entries whose labels differ only in letter case are
fused as two distinct labels, and the non-lowercase spelling "Joy" survives
verbatim in the output — there is no case-insensitive union and no lowercase
canonicalization. -/
theorem C2_counterexample :
    combine_emotions [⟨"Joy", 80⟩] [⟨"joy", 40⟩] []
        (fun s => if s = "text" then some (1/2) else if s = "audio" then some (1/2) else none) =
      [⟨"Joy", 80⟩, ⟨"joy", 40⟩] := by
  norm_num +decide [combine_emotions, emotionSources, combinedList, uniqueEmotions, allLabels,
    insertUnique, labelWeights, findScore, getWeight, sortByConfidenceDesc, List.insertionSort,
    List.orderedInsert, confGE, List.filterMap_cons]

/-- C2 amended: the set of labels considered for fusion is the exact,
case-sensitive union of the labels appearing across all active sources, kept
verbatim; every label of the output occurs literally in some active source. -/
theorem C2_case_sensitive_union (te ae ve : List Entry) (w : Weights) (L : String) :
    (L ∈ uniqueEmotions (emotionSources te ae ve) ↔
      ∃ p ∈ emotionSources te ae ve, ∃ e ∈ p.2, e.emotion = L) ∧
    ((∃ e ∈ combine_emotions te ae ve w, e.emotion = L) →
      ∃ p ∈ emotionSources te ae ve, ∃ e ∈ p.2, e.emotion = L) := by
  constructor
  · rw [mem_uniqueEmotions, mem_allLabels]
  · rintro ⟨e, he, rfl⟩
    rw [mem_combine_emotions] at he
    exact mem_allLabels.mp (mem_uniqueEmotions.mp (mem_combinedList.mp he).1)

/-- C2 witness at a concrete input. -/
theorem C2_witness :
    ("joy" ∈ uniqueEmotions (emotionSources [⟨"Joy", 80⟩] [⟨"joy", 40⟩] []) ↔
      ∃ p ∈ emotionSources [⟨"Joy", 80⟩] [⟨"joy", 40⟩] [], ∃ e ∈ p.2, e.emotion = "joy") ∧
    ((∃ e ∈ combine_emotions [⟨"Joy", 80⟩] [⟨"joy", 40⟩] [] default_weights,
        e.emotion = "joy") →
      ∃ p ∈ emotionSources [⟨"Joy", 80⟩] [⟨"joy", 40⟩] [], ∃ e ∈ p.2, e.emotion = "joy") :=
  C2_case_sensitive_union _ _ _ default_weights "joy"

/-- C4: for non-negative weights and any label `L` of the union, the entries
of the combined output labelled `L` are exactly those with confidence
`weighted_sum(L)/total_weight(L)` when `total_weight(L) > 0` (both sums over
the modalities scoring `L` strictly positively), and `L` is omitted when
`total_weight(L) = 0`. -/
theorem C4_weighted_mean (te ae ve : List Entry) (w : Weights)
    (_hw : ∀ s, 0 ≤ getWeight w s)
    (L : String) (hL : L ∈ uniqueEmotions (emotionSources te ae ve)) :
    (∀ c : ℚ, (⟨L, c⟩ : Entry) ∈ combine_emotions te ae ve w ↔
      (0 < total_weight (emotionSources te ae ve) w L ∧
       c = weighted_sum (emotionSources te ae ve) w L /
           total_weight (emotionSources te ae ve) w L)) ∧
    (total_weight (emotionSources te ae ve) w L = 0 →
      ∀ c : ℚ, (⟨L, c⟩ : Entry) ∉ combine_emotions te ae ve w) := by
  constructor
  · intro c
    rw [mem_combine_emotions, mem_combinedList]
    exact ⟨fun ⟨_, htw, hc⟩ => ⟨htw, hc⟩, fun ⟨htw, hc⟩ => ⟨hL, htw, hc⟩⟩
  · intro h0 c hc
    rw [mem_combine_emotions] at hc
    have htw := (mem_combinedList.mp hc).2.1
    rw [h0] at htw
    exact lt_irrefl 0 htw

/-- C4 witness at a concrete input. -/
theorem C4_witness :
    (∀ s, 0 ≤ getWeight default_weights s) ∧
    "happy" ∈ uniqueEmotions (emotionSources [⟨"happy", 100⟩] [⟨"happy", 50⟩] []) ∧
    ((∀ c : ℚ,
        (⟨"happy", c⟩ : Entry) ∈
            combine_emotions [⟨"happy", 100⟩] [⟨"happy", 50⟩] [] default_weights ↔
          (0 < total_weight (emotionSources [⟨"happy", 100⟩] [⟨"happy", 50⟩] [])
              default_weights "happy" ∧
           c = weighted_sum (emotionSources [⟨"happy", 100⟩] [⟨"happy", 50⟩] [])
                 default_weights "happy" /
               total_weight (emotionSources [⟨"happy", 100⟩] [⟨"happy", 50⟩] [])
                 default_weights "happy")) ∧
      (total_weight (emotionSources [⟨"happy", 100⟩] [⟨"happy", 50⟩] [])
          default_weights "happy" = 0 →
        ∀ c : ℚ, (⟨"happy", c⟩ : Entry) ∉
          combine_emotions [⟨"happy", 100⟩] [⟨"happy", 50⟩] [] default_weights)) :=
  ⟨fun s => by unfold getWeight default_weights; split_ifs <;> norm_num,
   by decide,
   C4_weighted_mean _ _ _ _
     (fun s => by unfold getWeight default_weights; split_ifs <;> norm_num)
     "happy" (by decide)⟩

/-- C9: a modality name absent from the weights dict is treated exactly as
weight 0 (`weights.get(source, 0)`), and when no active source's name occurs
in the weights dict the combined result is the empty list. -/
theorem C9_absent_modality_weight (te ae ve : List Entry) (w : Weights) (m : String) :
    (w m = none →
      combine_emotions te ae ve w = combine_emotions te ae ve (setWeight w m 0)) ∧
    ((∀ p ∈ emotionSources te ae ve, w p.1 = none) →
      combine_emotions te ae ve w = []) := by
  constructor
  · intro hm
    apply combine_emotions_congr
    intro s
    unfold getWeight setWeight
    by_cases hs : s = m
    · rw [if_pos hs, hs, hm]
      rfl
    · rw [if_neg hs]
  · intro hall
    rw [combine_emotions_eq]
    have hnil : combinedList (emotionSources te ae ve) w = [] := by
      unfold combinedList
      rw [List.filterMap_eq_nil_iff]
      intro L hL
      simp only [labelWeights_eq]
      have htw : total_weight (emotionSources te ae ve) w L = 0 := by
        unfold total_weight
        apply List.sum_eq_zero
        intro x hx
        obtain ⟨p, hp, rfl⟩ := List.mem_map.mp hx
        have hnone := hall p (List.mem_filter.mp hp).1
        unfold getWeight
        rw [hnone]
        rfl
      rw [if_neg (by rw [htw]; exact lt_irrefl 0)]
    rw [hnil]
    rfl

/-- C9 witness at a concrete input. -/
theorem C9_witness :
    ((fun s => if s = "audio" then some 1 else none : Weights) "text" = none ∧
     combine_emotions [⟨"joy", 80⟩] [] []
         (fun s => if s = "audio" then some 1 else none) =
       combine_emotions [⟨"joy", 80⟩] [] []
         (setWeight (fun s => if s = "audio" then some 1 else none) "text" 0)) ∧
    ((∀ p ∈ emotionSources [⟨"joy", 80⟩] [] [],
        (fun s => if s = "audio" then some 1 else none : Weights) p.1 = none) ∧
     combine_emotions [⟨"joy", 80⟩] [] []
       (fun s => if s = "audio" then some 1 else none) = []) :=
  ⟨⟨rfl, (C9_absent_modality_weight _ _ _ _ "text").1 rfl⟩,
   ⟨by decide, (C9_absent_modality_weight _ _ _ _ "text").2 (by decide)⟩⟩

/-- C3 counterexample: a single active source is not returned unchanged for
every weight configuration. With weight 0 for the source the result is empty;
with positive weight the result is re-sorted descending, entries with
non-positive confidence are dropped, and duplicate labels are collapsed to
their first occurrence. -/
theorem C3_counterexample :
    (combine_emotions [⟨"joy", 80⟩, ⟨"sad", 20⟩] [] []
        (fun s => if s = "text" then some 0 else none) = [] ∧
      ([] : List Entry) ≠ [⟨"joy", 80⟩, ⟨"sad", 20⟩]) ∧
    (combine_emotions [⟨"sad", 20⟩, ⟨"joy", 80⟩] [] []
        (fun s => if s = "text" then some 1 else none) = [⟨"joy", 80⟩, ⟨"sad", 20⟩] ∧
      ([⟨"joy", 80⟩, ⟨"sad", 20⟩] : List Entry) ≠ [⟨"sad", 20⟩, ⟨"joy", 80⟩]) ∧
    (combine_emotions [⟨"joy", 0⟩] [] []
        (fun s => if s = "text" then some 1 else none) = [] ∧
      ([] : List Entry) ≠ [⟨"joy", 0⟩]) ∧
    (combine_emotions [⟨"joy", 60⟩, ⟨"joy", 40⟩] [] []
        (fun s => if s = "text" then some 1 else none) = [⟨"joy", 60⟩] ∧
      ([⟨"joy", 60⟩] : List Entry) ≠ [⟨"joy", 60⟩, ⟨"joy", 40⟩]) := by
  refine ⟨⟨?_, by decide⟩, ⟨?_, by decide⟩, ⟨?_, by decide⟩, ⟨?_, by decide⟩⟩ <;>
    norm_num +decide [combine_emotions, emotionSources, combinedList, uniqueEmotions,
      allLabels, insertUnique, labelWeights, findScore, getWeight, sortByConfidenceDesc,
      List.insertionSort, List.orderedInsert, confGE, List.filterMap_cons]

/-- C3 amended: a single active modality's list passes through unchanged
provided the modality's weight is strictly positive, every confidence is
strictly positive, the labels are pairwise distinct, and the list is sorted
in *strictly* descending confidence order. Ties are excluded because with
equal confidences the output order follows the iteration order of the
`unique_emotions` set, which CPython does not fix across hash seeds; with
all confidences distinct the final descending sort has a unique result, so
this statement is independent of the set-iteration order the embedding
chooses. -/
theorem C3_single_source_identity (E : List Entry) (w : Weights)
    (hne : E ≠ []) (hpos : ∀ e ∈ E, 0 < e.confidence)
    (hnodup : (E.map Entry.emotion).Nodup)
    (hsorted : E.Pairwise (fun a b => b.confidence < a.confidence)) :
    (0 < getWeight w "text" → combine_emotions E [] [] w = E) ∧
    (0 < getWeight w "audio" → combine_emotions [] E [] w = E) ∧
    (0 < getWeight w "visual" → combine_emotions [] [] E w = E) := by
  have hsort : sortByConfidenceDesc E = E :=
    List.Sorted.insertionSort_eq (hsorted.imp fun h => le_of_lt h)
  refine ⟨fun hw => ?_, fun hw => ?_, fun hw => ?_⟩
  · rw [combine_emotions_eq,
      show emotionSources E [] [] = [("text", E)] by simp [emotionSources, hne],
      combinedList_single _ _ _ hpos hnodup hw, hsort]
  · rw [combine_emotions_eq,
      show emotionSources [] E [] = [("audio", E)] by simp [emotionSources, hne],
      combinedList_single _ _ _ hpos hnodup hw, hsort]
  · rw [combine_emotions_eq,
      show emotionSources [] [] E = [("visual", E)] by simp [emotionSources, hne],
      combinedList_single _ _ _ hpos hnodup hw, hsort]

/-- C3 witness at a concrete input. -/
theorem C3_witness :
    (([⟨"joy", 80⟩, ⟨"sad", 20⟩] : List Entry) ≠ [] ∧
     (∀ e ∈ ([⟨"joy", 80⟩, ⟨"sad", 20⟩] : List Entry), 0 < e.confidence) ∧
     (([⟨"joy", 80⟩, ⟨"sad", 20⟩] : List Entry).map Entry.emotion).Nodup ∧
     ([⟨"joy", 80⟩, ⟨"sad", 20⟩] : List Entry).Pairwise
       (fun a b => b.confidence < a.confidence)) ∧
    ((0 < getWeight (fun s => if s = "text" then some 1 else none) "text" →
       combine_emotions [⟨"joy", 80⟩, ⟨"sad", 20⟩] [] []
         (fun s => if s = "text" then some 1 else none) = [⟨"joy", 80⟩, ⟨"sad", 20⟩]) ∧
     (0 < getWeight (fun s => if s = "text" then some 1 else none) "audio" →
       combine_emotions [] [⟨"joy", 80⟩, ⟨"sad", 20⟩] []
         (fun s => if s = "text" then some 1 else none) = [⟨"joy", 80⟩, ⟨"sad", 20⟩]) ∧
     (0 < getWeight (fun s => if s = "text" then some 1 else none) "visual" →
       combine_emotions [] [] [⟨"joy", 80⟩, ⟨"sad", 20⟩]
         (fun s => if s = "text" then some 1 else none) = [⟨"joy", 80⟩, ⟨"sad", 20⟩])) :=
  ⟨⟨by decide, by decide, by decide, by decide⟩,
   C3_single_source_identity _ _ (by decide) (by decide) (by decide) (by decide)⟩

/-- C5 counterexample: a modality carrying weight 0 can still change the
output order among equal-confidence entries (it contributes its labels to
label discovery, which fixes the pre-sort order), so the result is not
always identical to omitting the modality. -/
theorem C5_counterexample :
    getWeight (fun s => if s = "text" then some 0 else if s = "audio" then some 1 else none)
      "text" = 0 ∧
    combine_emotions [⟨"y", 50⟩, ⟨"x", 50⟩] [⟨"x", 50⟩, ⟨"y", 50⟩] []
        (fun s => if s = "text" then some 0 else if s = "audio" then some 1 else none) =
      [⟨"y", 50⟩, ⟨"x", 50⟩] ∧
    combine_emotions [] [⟨"x", 50⟩, ⟨"y", 50⟩] []
        (fun s => if s = "text" then some 0 else if s = "audio" then some 1 else none) =
      [⟨"x", 50⟩, ⟨"y", 50⟩] ∧
    combine_emotions [⟨"y", 50⟩, ⟨"x", 50⟩] [⟨"x", 50⟩, ⟨"y", 50⟩] []
        (fun s => if s = "text" then some 0 else if s = "audio" then some 1 else none) ≠
      combine_emotions [] [⟨"x", 50⟩, ⟨"y", 50⟩] []
        (fun s => if s = "text" then some 0 else if s = "audio" then some 1 else none) := by
  have h1 : combine_emotions [⟨"y", 50⟩, ⟨"x", 50⟩] [⟨"x", 50⟩, ⟨"y", 50⟩] []
      (fun s => if s = "text" then some 0 else if s = "audio" then some 1 else none) =
      [⟨"y", 50⟩, ⟨"x", 50⟩] := by
    norm_num +decide [combine_emotions, emotionSources, combinedList, uniqueEmotions,
      allLabels, insertUnique, labelWeights, findScore, getWeight, sortByConfidenceDesc,
      List.insertionSort, List.orderedInsert, confGE, List.filterMap_cons]
  have h2 : combine_emotions [] [⟨"x", 50⟩, ⟨"y", 50⟩] []
      (fun s => if s = "text" then some 0 else if s = "audio" then some 1 else none) =
      [⟨"x", 50⟩, ⟨"y", 50⟩] := by
    norm_num +decide [combine_emotions, emotionSources, combinedList, uniqueEmotions,
      allLabels, insertUnique, labelWeights, findScore, getWeight, sortByConfidenceDesc,
      List.insertionSort, List.orderedInsert, confGE, List.filterMap_cons]
  refine ⟨rfl, h1, h2, ?_⟩
  rw [h1, h2]
  decide

/-- C5 amended: a modality with weight 0 contributes no label and no
confidence: the combined output is a permutation of the output obtained by
omitting that modality entirely, and both outputs are sorted in descending
confidence order — they agree except possibly in the order of
equal-confidence entries. -/
theorem C5_weight_zero (te ae ve : List Entry) (w : Weights) :
    (combine_emotions te ae ve w).Pairwise confGE ∧
    (getWeight w "text" = 0 →
      (combine_emotions te ae ve w).Perm (combine_emotions [] ae ve w)) ∧
    (getWeight w "audio" = 0 →
      (combine_emotions te ae ve w).Perm (combine_emotions te [] ve w)) ∧
    (getWeight w "visual" = 0 →
      (combine_emotions te ae ve w).Perm (combine_emotions te ae [] w)) := by
  refine ⟨?_, fun hw => ?_, fun hw => ?_, fun hw => ?_⟩
  · rw [combine_emotions_eq]
    exact sorted_sortByConfidenceDesc _
  · by_cases hte : te = []
    · subst hte
      exact List.Perm.refl _
    · have h1 : emotionSources te ae ve = [] ++ ("text", te) :: emotionSources [] ae ve := by
        simp [emotionSources, hte]
      have h2 : emotionSources [] ae ve = [] ++ emotionSources [] ae ve := rfl
      rw [combine_emotions_eq, combine_emotions_eq, h1]
      refine (sortByConfidenceDesc_perm _).trans (List.Perm.trans ?_
        (sortByConfidenceDesc_perm _).symm)
      have := combinedList_middle_zero [] (emotionSources [] ae ve) "text" te w hw
      simpa using this
  · by_cases hae : ae = []
    · subst hae
      exact List.Perm.refl _
    · have h1 : emotionSources te ae ve =
          (if te ≠ [] then [("text", te)] else []) ++ ("audio", ae) ::
            (if ve ≠ [] then [("visual", ve)] else []) := by
        simp [emotionSources, hae]
      have h2 : emotionSources te [] ve =
          (if te ≠ [] then [("text", te)] else []) ++
            (if ve ≠ [] then [("visual", ve)] else []) := by
        simp [emotionSources]
      rw [combine_emotions_eq, combine_emotions_eq, h1, h2]
      exact (sortByConfidenceDesc_perm _).trans (List.Perm.trans
        (combinedList_middle_zero _ _ "audio" ae w hw)
        (sortByConfidenceDesc_perm _).symm)
  · by_cases hve : ve = []
    · subst hve
      exact List.Perm.refl _
    · have h1 : emotionSources te ae ve =
          ((if te ≠ [] then [("text", te)] else []) ++
            (if ae ≠ [] then [("audio", ae)] else [])) ++ ("visual", ve) :: [] := by
        simp [emotionSources, hve]
      have h2 : emotionSources te ae [] =
          ((if te ≠ [] then [("text", te)] else []) ++
            (if ae ≠ [] then [("audio", ae)] else [])) ++ [] := by
        simp [emotionSources]
      rw [combine_emotions_eq, combine_emotions_eq, h1, h2]
      exact (sortByConfidenceDesc_perm _).trans (List.Perm.trans
        (combinedList_middle_zero _ _ "visual" ve w hw)
        (sortByConfidenceDesc_perm _).symm)

/-- C5 witness at a concrete input. -/
theorem C5_witness :
    getWeight (fun s => if s = "text" then some 0 else if s = "audio" then some 1 else none)
      "text" = 0 ∧
    (combine_emotions [⟨"y", 50⟩, ⟨"x", 50⟩] [⟨"x", 50⟩, ⟨"y", 50⟩] []
        (fun s => if s = "text" then some 0 else if s = "audio" then some 1 else none)).Perm
      (combine_emotions [] [⟨"x", 50⟩, ⟨"y", 50⟩] []
        (fun s => if s = "text" then some 0 else if s = "audio" then some 1 else none)) :=
  ⟨rfl, (C5_weight_zero _ _ _ _).2.1 rfl⟩

/-- C1 counterexample: on structurally invalid input — a missing `'emotion'`
key or a non-numeric confidence — the `try` bodies do raise (KeyError /
TypeError), but the public methods catch the exception and return a fallback
(`[]` for `combine_emotions`, the input unchanged for `normalize_emotions`)
instead of propagating a caller-visible validation failure. -/
theorem C1_counterexample :
    combineBodyRaw [⟨none, some (.num 80)⟩] [] [] default_weights = .error .keyError ∧
    combine_emotions_py [⟨none, some (.num 80)⟩] [] [] default_weights = .ok [] ∧
    combineBodyRaw [⟨some "joy", some (.str "high")⟩] [] [] default_weights =
      .error .typeError ∧
    combine_emotions_py [⟨some "joy", some (.str "high")⟩] [] [] default_weights = .ok [] ∧
    normalizeBodyRaw [⟨some "joy", some (.str "high")⟩] = .error .typeError ∧
    normalize_emotions_py [⟨some "joy", some (.str "high")⟩] =
      .ok [⟨some "joy", some (.str "high")⟩] :=
  ⟨rfl, rfl, rfl, rfl, rfl, rfl⟩

/-- C1 amended: the fusion core never propagates a failure to the caller: on
any raw input both public methods return normally, and whenever the `try`
body raises, `combine_emotions` returns `[]` and `normalize_emotions`
returns its input unchanged. -/
theorem C1_errors_swallowed (te ae ve : List RawEntry) (w : Weights) (l : List RawEntry) :
    (∃ r, combine_emotions_py te ae ve w = .ok r) ∧
    (∀ err, combineBodyRaw te ae ve w = .error err →
      combine_emotions_py te ae ve w = .ok []) ∧
    (∃ r, normalize_emotions_py l = .ok r) ∧
    (∀ err, normalizeBodyRaw l = .error err → normalize_emotions_py l = .ok l) := by
  unfold combine_emotions_py normalize_emotions_py
  refine ⟨?_, ?_, ?_, ?_⟩
  · cases h : combineBodyRaw te ae ve w with
    | ok r => exact ⟨r, rfl⟩
    | error e => exact ⟨[], rfl⟩
  · intro err herr
    rw [herr]
  · cases h : normalizeBodyRaw l with
    | ok r => exact ⟨r, rfl⟩
    | error e => exact ⟨l, rfl⟩
  · intro err herr
    rw [herr]

/-- C1 witness at a concrete input. -/
theorem C1_witness :
    combineBodyRaw [⟨none, some (.num 80)⟩] [] [] default_weights = .error .keyError ∧
    combine_emotions_py [⟨none, some (.num 80)⟩] [] [] default_weights = .ok [] ∧
    normalizeBodyRaw [⟨some "happy", some (.str "low")⟩] = .error .typeError ∧
    normalize_emotions_py [⟨some "happy", some (.str "low")⟩] =
      .ok [⟨some "happy", some (.str "low")⟩] :=
  ⟨rfl,
   (C1_errors_swallowed [⟨none, some (.num 80)⟩] [] [] default_weights
      [⟨some "happy", some (.str "low")⟩]).2.1 .keyError rfl,
   rfl,
   (C1_errors_swallowed [⟨none, some (.num 80)⟩] [] [] default_weights
      [⟨some "happy", some (.str "low")⟩]).2.2.2 .typeError rfl⟩

/-- C10 witness at a concrete input. -/
theorem C10_witness :
    (∀ s, 0 ≤ getWeight default_weights s) ∧
    ∀ e ∈ combine_emotions [⟨"joy", 80⟩, ⟨"sad", -3⟩] [] [] default_weights,
      0 < e.confidence ∧
      ∃ p ∈ emotionSources [⟨"joy", 80⟩, ⟨"sad", -3⟩] [] [],
        0 < getWeight default_weights p.1 ∧ 0 < findScore p.2 e.emotion :=
  ⟨fun s => by unfold getWeight default_weights; split_ifs <;> norm_num,
   C10_strictly_positive _ _ _ _
     (fun s => by unfold getWeight default_weights; split_ifs <;> norm_num)⟩

end EmotionRec
